import Mathlib

/-!
Verification of the `intern` string-interning library (package `intern`,
file `eq.go` and its tests).

The public surface in `eq.go` (`NewEq`, `Eq.String`, `ForgetAllEqs`) wraps a
shared table of type `state` whose methods (`assignSymbol`, `toString`,
`forgetAll`) live outside the provided sources; those methods are modelled
here from the specification (sections 3 and 4): a forward index from string
to handle, a reverse index from handle to string with a reserved slot 0, and
create-or-reuse assignment of dense handles.  Locking is identity in a
sequential model, so it is elided and every operation is a pure function on
the table state.
-/

namespace Intern

/-- Modelled from the spec: the `state` type behind the package-level `eq`
variable is not in the provided sources.  Section 3 of the spec describes it
as a forward index (string content to handle, byte-exact) and a reverse
index (an ordered sequence of strings indexed by handle value, slot 0 a
placeholder).  The forward Go map is modelled as an association list. -/
structure InternState where
  forward : List (String × Nat)
  reverse : List String
deriving DecidableEq

/-- Lookup in the forward index: the Go map read `forward[s]`. -/
def lookupForward : List (String × Nat) → String → Option Nat
  | [], _ => none
  | (k, v) :: rest, s => if k = s then some v else lookupForward rest s

/-- Modelled from the spec: `state.forgetAll` (called by `ForgetAllEqs` in
`eq.go` and by package `init`) is not in the provided sources.  Section 4.1:
replace the forward index with an empty one and the reverse index with one
containing only the reserved slot 0 (a placeholder, never returned). -/
def forgetAll (_ : InternState) : InternState :=
  { forward := [], reverse := [""] }

/-- The table as package `init` in `eq.go` leaves it: `eq.forgetAll()`
applied to the zero-valued state. -/
def initState : InternState :=
  forgetAll { forward := [], reverse := [] }

/-- Modelled from the spec: `state.assignSymbol`, called by `NewEq` in
`eq.go`, is not in the provided sources.  Section 4.1 Assign: look `s` up in
the forward index; if present return the existing handle with no mutation;
if absent take `h = len(reverse)`, append `s` to the reverse index and
insert `forward[s] = h`.  This is the total create-or-reuse function; the
error return of `assignSymbol` is modelled separately in `assignSymbol`. -/
def assign (st : InternState) (s : String) : Nat × InternState :=
  match lookupForward st.forward s with
  | some h => (h, st)
  | none =>
    (st.reverse.length,
     { forward := (s, st.reverse.length) :: st.forward,
       reverse := st.reverse ++ [s] })

/-- Modelled from the spec: the fallible signature of `state.assignSymbol`
(`NewEq` checks its error and panics).  Sections 4.1 and 7 make an internal
forward/reverse disagreement the only error condition of Assign, so the
error branch is modelled as firing exactly when the forward index maps `s`
to a handle that the reverse index does not map back to `s`. -/
def assignSymbol (st : InternState) (s : String) : Except String (Nat × InternState) :=
  match lookupForward st.forward s with
  | some h =>
    if st.reverse.get? h = some s then Except.ok (h, st)
    else Except.error "forward and reverse indices disagree"
  | none =>
    Except.ok
      (st.reverse.length,
       { forward := (s, st.reverse.length) :: st.forward,
         reverse := st.reverse ++ [s] })

/-- `NewEq` from `eq.go`: calls `assignSymbol` and panics on a non-nil
error.  The panic is modelled as `none`. -/
def newEq (st : InternState) (s : String) : Option (Nat × InternState) :=
  match assignSymbol st s with
  | Except.ok r => some r
  | Except.error _ => none

/-- Modelled from the spec: `state.toString`, called by `Eq.String` in
`eq.go`, is not in the provided sources.  Section 4.1 Resolve: if `h == 0`
or `h >= len(reverse)` fail with InvalidHandle (the panic is modelled as
`none`); otherwise return `reverse[h]`.  Never mutates the table. -/
def resolve (st : InternState) (h : Nat) : Option String :=
  if h = 0 ∨ st.reverse.length ≤ h then none
  else st.reverse.get? h

/-- Modelled from the spec: `NewEqMulti` (AssignBatch), used by the tests,
is not in the provided sources.  Section 4.1: semantically equivalent to
calling Assign once per element in order under a single lock acquisition;
output order matches input order. -/
def assignBatch (st : InternState) : List String → List Nat × InternState
  | [] => ([], st)
  | s :: rest =>
    let p := assign st s
    let q := assignBatch p.2 rest
    (p.1 :: q.1, q.2)

/-- Modelled from the spec: the portable codec (the `MarshalJSON` side
exercised by the tests is not in the provided sources).  Section 4.2:
`Encode(h)` is equivalent to `Resolve(h)`, failing identically. -/
def encode (st : InternState) (h : Nat) : Option String :=
  resolve st h

/-- Modelled from the spec: the portable codec (the `UnmarshalJSON` side
exercised by the tests is not in the provided sources).  Section 4.2:
`Decode(s)` is equivalent to `Assign(s)`, re-interning into the current
table. -/
def decode (st : InternState) (s : String) : Nat × InternState :=
  assign st s

/-- First occurrences of a list of strings, in order, continuing from an
accumulator of strings already seen. -/
def firstSeenAux (acc : List String) : List String → List String
  | [] => acc
  | s :: rest => firstSeenAux (if s ∈ acc then acc else acc ++ [s]) rest

/-- The distinct strings of a list in first-seen order. -/
def firstSeen (l : List String) : List String :=
  firstSeenAux [] l

/-- The table invariant of spec section 3: forward and reverse indices are
mutually consistent for all valid handles `h ≥ 1`, the forward keys are
distinct, and `len(reverse)` is 1 (the reserved slot) plus the number of
distinct strings interned since the last reset. -/
structure WF (st : InternState) : Prop where
  len_eq : st.reverse.length = 1 + st.forward.length
  keys_nodup : (st.forward.map Prod.fst).Nodup
  fwd_rev : ∀ s h, lookupForward st.forward s = some h →
    1 ≤ h ∧ st.reverse.get? h = some s
  rev_fwd : ∀ h s, 1 ≤ h → st.reverse.get? h = some s →
    lookupForward st.forward s = some h

/-! ### Basic list facts used throughout -/

theorem get?_some_lt {α : Type} {l : List α} {i : Nat} {a : α}
    (h : l.get? i = some a) : i < l.length := by
  induction l generalizing i with
  | nil => simp [List.get?] at h
  | cons x xs ih =>
    cases i with
    | zero => simp
    | succ n =>
      simp only [List.get?] at h
      exact Nat.succ_lt_succ (ih h)

theorem get?_append_left {α : Type} {l1 : List α} (l2 : List α) {i : Nat}
    (h : i < l1.length) : (l1 ++ l2).get? i = l1.get? i := by
  induction l1 generalizing i with
  | nil => simp at h
  | cons x xs ih =>
    cases i with
    | zero => rfl
    | succ n =>
      simp only [List.cons_append, List.get?]
      exact ih (Nat.lt_of_succ_lt_succ h)

theorem get?_concat_self {α : Type} (l : List α) (a : α) :
    (l ++ [a]).get? l.length = some a := by
  induction l with
  | nil => rfl
  | cons x xs ih => simp [ih]

theorem get?_lt_some {α : Type} {l : List α} {i : Nat}
    (h : i < l.length) : ∃ a, l.get? i = some a := by
  induction l generalizing i with
  | nil => simp at h
  | cons x xs ih =>
    cases i with
    | zero => exact ⟨x, rfl⟩
    | succ n => exact ih (Nat.lt_of_succ_lt_succ h)

theorem get?_ge_none {α : Type} {l : List α} {i : Nat}
    (h : l.length ≤ i) : l.get? i = none := by
  induction l generalizing i with
  | nil => cases i <;> rfl
  | cons x xs ih =>
    cases i with
    | zero => simp at h
    | succ n => exact ih (Nat.le_of_succ_le_succ h)

/-! ### Characterizing `assign` -/

theorem assign_of_found {st : InternState} {s : String} {h : Nat}
    (hl : lookupForward st.forward s = some h) : assign st s = (h, st) := by
  simp [assign, hl]

theorem assign_of_fresh {st : InternState} {s : String}
    (hl : lookupForward st.forward s = none) :
    assign st s =
      (st.reverse.length,
       { forward := (s, st.reverse.length) :: st.forward,
         reverse := st.reverse ++ [s] }) := by
  simp [assign, hl]

theorem lookup_none_not_mem {f : List (String × Nat)} {s : String}
    (h : lookupForward f s = none) : s ∉ f.map Prod.fst := by
  induction f with
  | nil => simp
  | cons p rest ih =>
    simp only [lookupForward] at h
    by_cases he : p.1 = s
    · rw [if_pos he] at h; cases h
    · rw [if_neg he] at h
      simp only [List.map_cons, List.mem_cons]
      rintro (rfl | hm)
      · exact he rfl
      · exact ih h hm

theorem lookup_assign_self (st : InternState) (s : String) :
    lookupForward (assign st s).2.forward s = some (assign st s).1 := by
  cases hc : lookupForward st.forward s with
  | some h => rw [assign_of_found hc]; exact hc
  | none =>
    rw [assign_of_fresh hc]
    simp [lookupForward]

theorem lookup_assign_mono {st : InternState} {t : String} {h : Nat} (s : String)
    (hl : lookupForward st.forward t = some h) :
    lookupForward (assign st s).2.forward t = some h := by
  cases hc : lookupForward st.forward s with
  | some h2 => rw [assign_of_found hc]; exact hl
  | none =>
    rw [assign_of_fresh hc]
    simp only [lookupForward]
    by_cases he : s = t
    · subst he; rw [hc] at hl; cases hl
    · rw [if_neg he]; exact hl

/-! ### Characterizing `resolve` -/

theorem resolve_of_get? {st : InternState} {h : Nat} {t : String} (h0 : h ≠ 0)
    (hg : st.reverse.get? h = some t) : resolve st h = some t := by
  have hlt := get?_some_lt hg
  unfold resolve
  rw [if_neg]
  · exact hg
  · rintro (rfl | hle)
    · exact h0 rfl
    · exact absurd hlt (Nat.not_lt.mpr hle)

theorem resolve_some_get? {st : InternState} {h : Nat} {t : String}
    (hr : resolve st h = some t) :
    h ≠ 0 ∧ h < st.reverse.length ∧ st.reverse.get? h = some t := by
  by_cases hc : h = 0 ∨ st.reverse.length ≤ h
  · unfold resolve at hr; rw [if_pos hc] at hr; cases hr
  · unfold resolve at hr; rw [if_neg hc] at hr
    push_neg at hc
    exact ⟨hc.1, hc.2, hr⟩

theorem resolve_assign_mono {st : InternState} {h : Nat} {t : String} (s : String)
    (hr : resolve st h = some t) : resolve (assign st s).2 h = some t := by
  obtain ⟨h0, hlt, hg⟩ := resolve_some_get? hr
  cases hc : lookupForward st.forward s with
  | some h2 => rw [assign_of_found hc]; exact hr
  | none =>
    rw [assign_of_fresh hc]
    apply resolve_of_get? h0
    rw [get?_append_left _ hlt]
    exact hg

/-! ### The invariant is established and preserved -/

theorem wf_init : WF initState := by
  constructor
  · rfl
  · exact List.nodup_nil
  · intro s h hl; cases hl
  · intro h s h1 hg
    exfalso
    have hlt := get?_some_lt hg
    have hone : initState.reverse.length = 1 := rfl
    omega

theorem wf_forgetAll (st : InternState) : WF (forgetAll st) := wf_init

theorem wf_assign {st : InternState} (s : String) (w : WF st) :
    WF (assign st s).2 := by
  cases hc : lookupForward st.forward s with
  | some h => rw [assign_of_found hc]; exact w
  | none =>
    rw [assign_of_fresh hc]
    have hlen := w.len_eq
    constructor
    · simp only [List.length_append, List.length_cons, List.length_nil]
      omega
    · simp only [List.map_cons]
      exact List.nodup_cons.mpr ⟨lookup_none_not_mem hc, w.keys_nodup⟩
    · intro t h hl
      simp only [lookupForward] at hl
      by_cases he : s = t
      · rw [if_pos he] at hl
        injection hl with hh
        subst he; subst hh
        refine ⟨by omega, ?_⟩
        exact get?_concat_self st.reverse s
      · rw [if_neg he] at hl
        obtain ⟨h1, hg⟩ := w.fwd_rev t h hl
        exact ⟨h1, by rw [get?_append_left _ (get?_some_lt hg)]; exact hg⟩
    · intro h t h1 hg
      rcases Nat.lt_trichotomy h st.reverse.length with hlt | heq | hgt
      · rw [get?_append_left _ hlt] at hg
        have hl := w.rev_fwd h t h1 hg
        simp only [lookupForward]
        by_cases he : s = t
        · subst he; rw [hc] at hl; cases hl
        · rw [if_neg he]; exact hl
      · subst heq
        rw [get?_concat_self st.reverse s] at hg
        injection hg with ht
        subst ht
        simp [lookupForward]
      · exfalso
        have : (st.reverse ++ [s]).length ≤ h := by
          simp only [List.length_append, List.length_singleton]
          omega
        rw [get?_ge_none this] at hg
        cases hg

/-! ### Round trip for a single assignment -/

theorem assign_roundtrip {st : InternState} (s : String) (w : WF st) :
    resolve (assign st s).2 (assign st s).1 = some s := by
  cases hc : lookupForward st.forward s with
  | some h =>
    rw [assign_of_found hc]
    obtain ⟨h1, hg⟩ := w.fwd_rev s h hc
    exact resolve_of_get? (by omega) hg
  | none =>
    rw [assign_of_fresh hc]
    have hlen := w.len_eq
    apply resolve_of_get? (by omega)
    exact get?_concat_self st.reverse s

theorem assign_fst_bounds {st : InternState} (s : String) (w : WF st) :
    1 ≤ (assign st s).1 ∧ (assign st s).1 < (assign st s).2.reverse.length := by
  obtain ⟨h0, hlt, _⟩ := resolve_some_get? (assign_roundtrip s w)
  exact ⟨by omega, hlt⟩

/-! ### Batch assignment -/

theorem assignBatch_length (l : List String) :
    ∀ st : InternState, (assignBatch st l).1.length = l.length := by
  induction l with
  | nil => intro st; rfl
  | cons s rest ih =>
    intro st
    simp only [assignBatch, List.length_cons]
    rw [ih]

theorem wf_assignBatch (l : List String) :
    ∀ st : InternState, WF st → WF (assignBatch st l).2 := by
  induction l with
  | nil => intro st w; exact w
  | cons s rest ih => intro st w; exact ih _ (wf_assign s w)

theorem resolve_assignBatch_mono {st : InternState} {h : Nat} {t : String}
    (l : List String) (hr : resolve st h = some t) :
    resolve (assignBatch st l).2 h = some t := by
  induction l generalizing st with
  | nil => exact hr
  | cons s rest ih => exact ih (resolve_assign_mono s hr)

theorem lookup_assignBatch_mono {st : InternState} {t : String} {h : Nat}
    (l : List String) (hl : lookupForward st.forward t = some h) :
    lookupForward (assignBatch st l).2.forward t = some h := by
  induction l generalizing st with
  | nil => exact hl
  | cons s rest ih => exact ih (lookup_assign_mono s hl)

theorem assignBatch_get? (l : List String) :
    ∀ (st : InternState) (i : Nat) (s : String), l.get? i = some s →
    (assignBatch st l).1.get? i =
      some ((assign (assignBatch st (l.take i)).2 s).1) := by
  induction l with
  | nil => intro st i s h; cases i <;> cases h
  | cons x rest ih =>
    intro st i s h
    cases i with
    | zero =>
      injection h with hx
      subst hx
      rfl
    | succ n => exact ih (assign st x).2 n s h

theorem assignBatch_resolve_final (l : List String) :
    ∀ st : InternState, WF st → ∀ (i : Nat) (s : String), l.get? i = some s →
    ∃ h, (assignBatch st l).1.get? i = some h ∧
      resolve (assignBatch st l).2 h = some s := by
  induction l with
  | nil => intro st _ i s h; cases i <;> cases h
  | cons x rest ih =>
    intro st w i s h
    cases i with
    | zero =>
      injection h with hx
      subst hx
      exact ⟨(assign st x).1, rfl,
        resolve_assignBatch_mono rest (assign_roundtrip x w)⟩
    | succ n => exact ih (assign st x).2 (wf_assign x w) n s h

theorem assignBatch_lookup_final (l : List String) :
    ∀ (st : InternState) (i : Nat) (s : String), l.get? i = some s →
    ∃ h, (assignBatch st l).1.get? i = some h ∧
      lookupForward (assignBatch st l).2.forward s = some h := by
  induction l with
  | nil => intro st i s h; cases i <;> cases h
  | cons x rest ih =>
    intro st i s h
    cases i with
    | zero =>
      injection h with hx
      subst hx
      exact ⟨(assign st x).1, rfl,
        lookup_assignBatch_mono rest (lookup_assign_self st x)⟩
    | succ n => exact ih (assign st x).2 n s h

/-! ### Reachable states and first-seen order -/

/-- States reachable from a reset table carrying the list of distinct
strings interned so far, in first-seen order. -/
def ReachInv (st : InternState) (acc : List String) : Prop :=
  st.reverse = "" :: acc ∧
  ∀ s : String, (lookupForward st.forward s).isSome ↔ s ∈ acc

theorem reachInv_init : ReachInv initState [] := by
  refine ⟨rfl, ?_⟩
  intro s
  simp [initState, forgetAll, lookupForward]

theorem reachInv_assign {st : InternState} {acc : List String} (s : String)
    (h : ReachInv st acc) :
    ReachInv (assign st s).2 (if s ∈ acc then acc else acc ++ [s]) := by
  obtain ⟨hrev, hmem⟩ := h
  by_cases hin : s ∈ acc
  · rw [if_pos hin]
    have hsome : (lookupForward st.forward s).isSome := (hmem s).mpr hin
    obtain ⟨h0, hl⟩ : ∃ h0, lookupForward st.forward s = some h0 := by
      cases hcase : lookupForward st.forward s with
      | none => rw [hcase] at hsome; cases hsome
      | some v => exact ⟨v, rfl⟩
    rw [assign_of_found hl]
    exact ⟨hrev, hmem⟩
  · rw [if_neg hin]
    have hl : lookupForward st.forward s = none := by
      cases hcase : lookupForward st.forward s with
      | none => rfl
      | some v => exact absurd ((hmem s).mp (by rw [hcase]; rfl)) hin
    rw [assign_of_fresh hl]
    refine ⟨?_, ?_⟩
    · show st.reverse ++ [s] = "" :: (acc ++ [s])
      rw [hrev]
      rfl
    · intro t
      show (if s = t then some st.reverse.length
            else lookupForward st.forward t).isSome = true ↔ t ∈ acc ++ [s]
      by_cases he : s = t
      · subst he
        simp [List.mem_append]
      · rw [if_neg he, hmem t]
        constructor
        · intro ht; exact List.mem_append_left _ ht
        · intro ht
          rcases List.mem_append.mp ht with h1 | h2
          · exact h1
          · exact absurd (List.mem_singleton.mp h2) fun hh => he hh.symm

theorem reachInv_assignBatch (l : List String) :
    ∀ (st : InternState) (acc : List String), ReachInv st acc →
    ReachInv (assignBatch st l).2 (firstSeenAux acc l) := by
  induction l with
  | nil => intro st acc h; exact h
  | cons s rest ih => intro st acc h; exact ih _ _ (reachInv_assign s h)

theorem firstSeenAux_nodup (l : List String) :
    ∀ acc : List String, acc.Nodup → (firstSeenAux acc l).Nodup := by
  induction l with
  | nil => intro acc h; exact h
  | cons s rest ih =>
    intro acc h
    apply ih
    by_cases hin : s ∈ acc
    · rwa [if_pos hin]
    · rw [if_neg hin]
      refine h.append (List.nodup_singleton s) ?_
      intro a ha hb
      rw [List.mem_singleton] at hb
      subst hb
      exact hin ha

/-- Handles of distinct strings (and equal strings) within one run,
stated over the final table: equal handles at positions `i` and `j` of a
batch exactly when the strings there are equal. -/
theorem batch_handle_eq_iff {st : InternState} (w : WF st) (strs : List String)
    {i j : Nat} {si sj : String}
    (hi : strs.get? i = some si) (hj : strs.get? j = some sj) :
    ((assignBatch st strs).1.get? i = (assignBatch st strs).1.get? j) ↔ si = sj := by
  constructor
  · intro he
    obtain ⟨h1, hg1, hr1⟩ := assignBatch_resolve_final strs st w i si hi
    obtain ⟨h2, hg2, hr2⟩ := assignBatch_resolve_final strs st w j sj hj
    rw [hg1, hg2] at he
    have he2 := Option.some.inj he
    subst he2
    rw [hr1] at hr2
    exact Option.some.inj hr2
  · intro he
    subst he
    obtain ⟨h1, hg1, hl1⟩ := assignBatch_lookup_final strs st i si hi
    obtain ⟨h2, hg2, hl2⟩ := assignBatch_lookup_final strs st j si hj
    rw [hg1, hg2]
    rw [hl1] at hl2
    exact hl2

/-! ### The claims -/

/-- C1: within one epoch, two successive Assign calls return equal handles
exactly when the strings are byte-exact equal; in particular
"Roadrunner" and "roadrunner" receive distinct handles. -/
theorem C1_canonicalization :
    (∀ (st : InternState) (s1 s2 : String), WF st →
      ((assign (assign st s1).2 s2).1 = (assign st s1).1 ↔ s1 = s2)) ∧
    (assign (assign initState "Roadrunner").2 "roadrunner").1 ≠
      (assign initState "Roadrunner").1 := by
  constructor
  · intro st s1 s2 w
    constructor
    · intro heq
      have hr1 : resolve (assign (assign st s1).2 s2).2 (assign st s1).1 = some s1 :=
        resolve_assign_mono s2 (assign_roundtrip s1 w)
      have hr2 : resolve (assign (assign st s1).2 s2).2 (assign (assign st s1).2 s2).1
          = some s2 := assign_roundtrip s2 (wf_assign s1 w)
      rw [heq, hr1] at hr2
      exact Option.some.inj hr2
    · intro heq
      subst heq
      rw [assign_of_found (lookup_assign_self st s1)]
  · decide

/-- C1 witness: at a concrete table and string, the two sides of the
equivalence coincide. -/
theorem C1_canonicalization_witness :
    WF initState ∧
    ((assign (assign initState "wile").2 "wile").1 = (assign initState "wile").1 ↔
      ("wile" : String) = "wile") :=
  ⟨wf_init, C1_canonicalization.1 initState "wile" "wile" wf_init⟩

/-- C2: resolving the handle returned by Assign gives back the original
string byte-identically, including for the empty string. -/
theorem C2_round_trip :
    (∀ (st : InternState) (s : String), WF st →
      resolve (assign st s).2 (assign st s).1 = some s) ∧
    resolve (assign initState "").2 (assign initState "").1 = some "" := by
  constructor
  · intro st s w
    exact assign_roundtrip s w
  · decide

/-- C2 witness: the round trip evaluated at a concrete table and string. -/
theorem C2_round_trip_witness :
    WF initState ∧
    resolve (assign initState "beep").2 (assign initState "beep").1 = some "beep" :=
  ⟨wf_init, C2_round_trip.1 initState "beep" wf_init⟩

/-- C3: Assign of an absent string returns `len(reverse)` and grows the
reverse index by one; Assign of a present string returns its existing
handle without mutation; the end-to-end example
roadrunner → 1, coyote → 2, roadrunner → 1, Reset, coyote → 1 holds. -/
theorem C3_dense_allocation :
    (∀ (st : InternState) (s : String), lookupForward st.forward s = none →
      (assign st s).1 = st.reverse.length ∧
      (assign st s).2.reverse = st.reverse ++ [s] ∧
      (assign st s).2.reverse.length = st.reverse.length + 1) ∧
    (∀ (st : InternState) (s : String) (h : Nat),
      lookupForward st.forward s = some h → assign st s = (h, st)) ∧
    (assign initState "roadrunner").1 = 1 ∧
    (assign (assign initState "roadrunner").2 "coyote").1 = 2 ∧
    (assign (assign (assign initState "roadrunner").2 "coyote").2 "roadrunner").1 = 1 ∧
    (assign (forgetAll
      (assign (assign (assign initState "roadrunner").2 "coyote").2 "roadrunner").2)
      "coyote").1 = 1 := by
  refine ⟨?_, ?_, by decide, by decide, by decide, by decide⟩
  · intro st s hl
    rw [assign_of_fresh hl]
    refine ⟨rfl, rfl, ?_⟩
    simp
  · intro st s h hl
    exact assign_of_found hl

/-- C3 witness: the fresh and present branches evaluated concretely. -/
theorem C3_dense_allocation_witness :
    lookupForward initState.forward "x" = none ∧
    (assign initState "x").1 = initState.reverse.length ∧
    lookupForward (assign initState "x").2.forward "x" = some 1 ∧
    assign (assign initState "x").2 "x" = (1, (assign initState "x").2) :=
  ⟨by decide, (C3_dense_allocation.1 initState "x" (by decide)).1, by decide,
    C3_dense_allocation.2.1 (assign initState "x").2 "x" 1 (by decide)⟩

/-- C4: Resolve fails exactly when `h = 0` or `h ≥ len(reverse)`; the zero
handle always fails; every in-range handle `1 ≤ h < len(reverse)` resolves
to `reverse[h]`. -/
theorem C4_resolve_condition :
    ∀ (st : InternState) (h : Nat),
      (resolve st h = none ↔ (h = 0 ∨ st.reverse.length ≤ h)) ∧
      resolve st 0 = none ∧
      (1 ≤ h → h < st.reverse.length →
        ∃ t, resolve st h = some t ∧ st.reverse.get? h = some t) := by
  intro st h
  refine ⟨⟨?_, ?_⟩, ?_, ?_⟩
  · intro hn
    by_cases hc : h = 0 ∨ st.reverse.length ≤ h
    · exact hc
    · exfalso
      unfold resolve at hn
      rw [if_neg hc] at hn
      push_neg at hc
      obtain ⟨t, ht⟩ := get?_lt_some hc.2
      rw [ht] at hn
      cases hn
  · intro hc
    unfold resolve
    rw [if_pos hc]
  · unfold resolve
    rw [if_pos (Or.inl rfl)]
  · intro h1 h2
    obtain ⟨t, ht⟩ := get?_lt_some h2
    refine ⟨t, ?_, ht⟩
    exact resolve_of_get? (by omega) ht

/-- C4 witness: the failure condition and a successful in-range resolution
evaluated at a concrete table. -/
theorem C4_resolve_condition_witness :
    (1 ≤ 1 ∧ 1 < (assign initState "a").2.reverse.length) ∧
    (∃ t, resolve (assign initState "a").2 1 = some t ∧
      (assign initState "a").2.reverse.get? 1 = some t) :=
  ⟨by decide, (C4_resolve_condition (assign initState "a").2 1).2.2
    (by decide) (by decide)⟩

/-- C5: NewEq never panics: for any consistent table and any string
(including the empty one), the error branch of assignSymbol is untaken and
NewEq returns exactly the create-or-reuse result. -/
theorem C5_assign_total :
    ∀ (st : InternState) (s : String), WF st →
      newEq st s = some (assign st s) := by
  intro st s w
  cases hc : lookupForward st.forward s with
  | none => simp [newEq, assignSymbol, hc, assign_of_fresh hc]
  | some h =>
    obtain ⟨h1, hg⟩ := w.fwd_rev s h hc
    rw [assign_of_found hc]
    simp only [newEq, assignSymbol, hc]
    rw [if_pos hg]

/-- C5 witness: NewEq succeeds at a concrete table, including for the
empty string. -/
theorem C5_assign_total_witness :
    WF initState ∧
    newEq initState "" = some (assign initState "") ∧
    newEq (assign initState "").2 "" = some (assign (assign initState "").2 "") :=
  ⟨wf_init, C5_assign_total initState "" wf_init,
    C5_assign_total (assign initState "").2 "" (wf_assign "" wf_init)⟩

/-- C6 counterexample: a handle minted strictly before a Reset whose integer
value is reassigned by a later Assign of the same string; resolving it
afterwards neither fails nor returns a different string — it returns the
originally interned string, contradicting the claim as stated. -/
theorem C6_counterexample :
    (assign initState "old string").1 = 1 ∧
    resolve (assign initState "old string").2 1 = some "old string" ∧
    (assign (forgetAll (assign initState "old string").2) "old string").1 = 1 ∧
    resolve (assign (forgetAll (assign initState "old string").2) "old string").2 1
      = some "old string" := by
  decide

/-- C6 (amended): Reset replaces the forward index with an empty one and
the reverse index with only the reserved slot, so immediately after Reset
every handle fails to resolve; once later Assigns reuse a stale handle's
integer value, resolving it returns whatever string now occupies the slot,
which can differ from the originally interned string — no correct
cross-Reset resolution is guaranteed. -/
theorem C6_reset_semantics :
    (∀ st : InternState, forgetAll st = { forward := [], reverse := [""] }) ∧
    (∀ (st : InternState) (h : Nat), resolve (forgetAll st) h = none) ∧
    ((assign initState "old string").1 = 1 ∧
     resolve (assign initState "old string").2 1 = some "old string" ∧
     (assign (forgetAll (assign initState "old string").2) "new string").1 = 1 ∧
     resolve (assign (forgetAll (assign initState "old string").2) "new string").2 1
       = some "new string") := by
  refine ⟨fun st => rfl, ?_, by decide⟩
  intro st h
  have hc : h = 0 ∨ (forgetAll st).reverse.length ≤ h := by
    cases h with
    | zero => exact Or.inl rfl
    | succ n => exact Or.inr (Nat.succ_le_succ (Nat.zero_le n))
  unfold resolve
  rw [if_pos hc]

/-- C7: AssignBatch returns one handle per input in order, its i-th element
is exactly what Assign would return on the table state reached after the
first i elements, and duplicate inputs receive identical handles. -/
theorem C7_batch_equivalence :
    ∀ (st : InternState) (strs : List String),
      (assignBatch st strs).1.length = strs.length ∧
      (∀ (i : Nat) (s : String), strs.get? i = some s →
        (assignBatch st strs).1.get? i =
          some ((assign (assignBatch st (strs.take i)).2 s).1)) ∧
      (∀ (i j : Nat) (s : String), strs.get? i = some s → strs.get? j = some s →
        (assignBatch st strs).1.get? i = (assignBatch st strs).1.get? j) := by
  intro st strs
  refine ⟨assignBatch_length strs st,
    fun i s h => assignBatch_get? strs st i s h, ?_⟩
  intro i j s hi hj
  obtain ⟨h1, hg1, hl1⟩ := assignBatch_lookup_final strs st i s hi
  obtain ⟨h2, hg2, hl2⟩ := assignBatch_lookup_final strs st j s hj
  rw [hg1, hg2]
  rw [hl1] at hl2
  exact hl2

/-- C7 witness: the element-wise equivalence and duplicate sharing for the
batch ["a", "b", "a"] from a reset table. -/
theorem C7_batch_equivalence_witness :
    (["a", "b", "a"].get? 2 = some "a") ∧
    ((assignBatch initState ["a", "b", "a"]).1.get? 2 =
      some ((assign (assignBatch initState (["a", "b", "a"].take 2)).2 "a").1)) ∧
    ((assignBatch initState ["a", "b", "a"]).1.get? 0 =
      (assignBatch initState ["a", "b", "a"]).1.get? 2) :=
  ⟨by decide,
    (C7_batch_equivalence initState ["a", "b", "a"]).2.1 2 "a" (by decide),
    (C7_batch_equivalence initState ["a", "b", "a"]).2.2 0 2 "a"
      (by decide) (by decide)⟩

/-- C8: Encode is Resolve and Decode is Assign; encoding a batch of handles
yields the interned strings, decoding them in any later (possibly reset)
consistent epoch yields handles of the same count that resolve to the same
strings, and duplicate-sharing of handles matches string equality in both
epochs. -/
theorem C8_codec_round_trip :
    (∀ (st : InternState) (h : Nat), encode st h = resolve st h) ∧
    (∀ (st : InternState) (s : String), decode st s = assign st s) ∧
    (∀ (st : InternState) (strs : List String), WF st →
      (∀ (i : Nat) (s : String), strs.get? i = some s →
        ∃ h, (assignBatch st strs).1.get? i = some h ∧
          encode (assignBatch st strs).2 h = some s) ∧
      (∀ st2 : InternState, WF st2 →
        (assignBatch st2 strs).1.length = (assignBatch st strs).1.length ∧
        (∀ (i : Nat) (s : String), strs.get? i = some s →
          ∃ h2, (assignBatch st2 strs).1.get? i = some h2 ∧
            encode (assignBatch st2 strs).2 h2 = some s) ∧
        (∀ (i j : Nat) (si sj : String),
          strs.get? i = some si → strs.get? j = some sj →
          (((assignBatch st strs).1.get? i = (assignBatch st strs).1.get? j) ↔
            si = sj) ∧
          (((assignBatch st2 strs).1.get? i = (assignBatch st2 strs).1.get? j) ↔
            si = sj)))) := by
  refine ⟨fun st h => rfl, fun st s => rfl, ?_⟩
  intro st strs w
  refine ⟨fun i s h => assignBatch_resolve_final strs st w i s h, ?_⟩
  intro st2 w2
  refine ⟨?_, fun i s h => assignBatch_resolve_final strs st2 w2 i s h, ?_⟩
  · rw [assignBatch_length strs st2, assignBatch_length strs st]
  · intro i j si sj hi hj
    exact ⟨batch_handle_eq_iff w strs hi hj, batch_handle_eq_iff w2 strs hi hj⟩

/-- C8 witness: the codec round trip for ["a", "b", "a"] encoded in one
epoch and decoded after a reset, with duplicate-sharing preserved. -/
theorem C8_codec_round_trip_witness :
    WF initState ∧
    (∃ h, (assignBatch initState ["a", "b", "a"]).1.get? 0 = some h ∧
      encode (assignBatch initState ["a", "b", "a"]).2 h = some "a") ∧
    (((assignBatch initState ["a", "b", "a"]).1.get? 0 =
        (assignBatch initState ["a", "b", "a"]).1.get? 2) ↔
      ("a" : String) = "a") :=
  ⟨wf_init,
    ((C8_codec_round_trip.2.2 initState ["a", "b", "a"] wf_init).1 0 "a" (by decide)),
    (((C8_codec_round_trip.2.2 initState ["a", "b", "a"] wf_init).2 initState
      wf_init).2.2 0 2 "a" "a" (by decide) (by decide)).1⟩

/-- C9: the table invariant — mutual forward/reverse consistency for valid
handles, distinct forward keys, and `len(reverse)` equal to 1 plus the
number of distinct interned strings — holds initially and is preserved by
Assign, AssignBatch and Reset, and a handle once resolvable keeps
resolving to the same string across further Assigns within the epoch. -/
theorem C9_table_invariant :
    WF initState ∧
    (∀ (st : InternState) (s : String), WF st → WF (assign st s).2) ∧
    (∀ (st : InternState) (strs : List String), WF st → WF (assignBatch st strs).2) ∧
    (∀ st : InternState, WF (forgetAll st)) ∧
    (∀ (st : InternState) (s : String) (h : Nat) (t : String),
      resolve st h = some t → resolve (assign st s).2 h = some t) ∧
    (∀ (st : InternState) (strs : List String) (h : Nat) (t : String),
      resolve st h = some t → resolve (assignBatch st strs).2 h = some t) :=
  ⟨wf_init, fun _ s w => wf_assign s w, fun _ strs w => wf_assignBatch strs _ w,
    wf_forgetAll, fun _ s _ _ hr => resolve_assign_mono s hr,
    fun _ strs _ _ hr => resolve_assignBatch_mono strs hr⟩

/-- C9 witness: the invariant holds after a concrete Assign, and a concrete
resolvable handle survives a further Assign. -/
theorem C9_table_invariant_witness :
    WF initState ∧ WF (assign initState "w").2 ∧
    (resolve (assign initState "w").2 1 = some "w" ∧
      resolve (assign (assign initState "w").2 "v").2 1 = some "w") :=
  ⟨wf_init, C9_table_invariant.2.1 initState "w" wf_init,
    by decide,
    C9_table_invariant.2.2.2.2.1 (assign initState "w").2 "v" 1 "w" (by decide)⟩

/-- C10: starting from a reset table, interning a sequence of strings is a
pure function of the sequence: the final reverse index is the reserved slot
followed by the distinct strings in first-seen order (without duplicates),
one handle is returned per input, and each returned handle indexes its
input string in that first-seen list — so two runs over the same sequence
yield identical handle values. -/
theorem C10_determinism :
    ∀ strs : List String,
      (assignBatch initState strs).2.reverse = "" :: firstSeen strs ∧
      (assignBatch initState strs).1.length = strs.length ∧
      (firstSeen strs).Nodup ∧
      (∀ (i : Nat) (s : String), strs.get? i = some s →
        ∃ h, (assignBatch initState strs).1.get? i = some h ∧
          ("" :: firstSeen strs).get? h = some s) := by
  intro strs
  have hreach := reachInv_assignBatch strs initState [] reachInv_init
  refine ⟨hreach.1, assignBatch_length strs initState,
    firstSeenAux_nodup strs [] List.nodup_nil, ?_⟩
  intro i s h
  obtain ⟨hh, hg, hr⟩ := assignBatch_resolve_final strs initState wf_init i s h
  refine ⟨hh, hg, ?_⟩
  obtain ⟨_, _, hget⟩ := resolve_some_get? hr
  show ("" :: firstSeenAux [] strs).get? hh = some s
  rw [← hreach.1]
  exact hget

/-- C10 witness: the first-seen characterization evaluated on a concrete
run with a duplicate. -/
theorem C10_determinism_witness :
    (["a", "b", "a"].get? 2 = some "a") ∧
    (∃ h, (assignBatch initState ["a", "b", "a"]).1.get? 2 = some h ∧
      ("" :: firstSeen ["a", "b", "a"]).get? h = some "a") :=
  ⟨by decide, (C10_determinism ["a", "b", "a"]).2.2.2 2 "a" (by decide)⟩

end Intern
